import Mathlib

/-!
Verification of the MLFT position-signal filters.

Shallow embedding of the per-instrument signal logic of the repository:
the Schmitt-trigger hysteresis and Chandelier-exit functions of
src/strategies/alm/numba_logic.py, the turnover-control filters of
src/strategies/alm/strategy_optimized.py (signal persistence, signal
strength, minimum holding period, cooldown), the ultra-wide hysteresis of
src/strategies/alm/strategy_ultra_conservative.py, and the regime gating of
src/strategies/alm/strategy_advanced.py and regime.py.

Prices, scores and signal values (float64 in the source) are embedded as
rationals; NaN-able quantities are embedded as Option values, with every
comparison against a missing value evaluating to false, matching IEEE
comparison semantics used by the source.  Integer-indexed loops become
structural recursions carrying the loop state; in-place slice assignment on
a result array becomes a functional range update.
-/

namespace MLFT

/-- np.sign on a real value: 1, -1 or 0. -/
def qsign (q : ℚ) : ℚ := if 0 < q then 1 else if q < 0 then -1 else 0

/-- np.abs on a real value. -/
def qabs (q : ℚ) : ℚ := if q < 0 then -q else q

/-! ### apply_hysteresis_numba (src/strategies/alm/numba_logic.py, lines 11-62)

One bar of the input to the hysteresis loop: price, upper band, lower band,
middle band (four parallel float arrays in the source). -/

structure HBar where
  price : ℚ
  upper : ℚ
  lower : ℚ
  middle : ℚ
deriving Repr, DecidableEq

/-- The body of the hysteresis loop of apply_hysteresis_numba: given the
current state (0 flat, 1 long, -1 short) and the bar at index i, the new
state.  Entry: price above upper band (long) or below lower band (short);
exit for a long: price below middle or lower band; exit for a short: price
above middle or upper band. -/
def hstep (state : ℚ) (b : HBar) : ℚ :=
  if state = 0 then
    if b.price > b.upper then 1
    else if b.price < b.lower then -1
    else 0
  else if state = 1 then
    if b.price < b.middle ∨ b.price < b.lower then 0 else 1
  else if state = -1 then
    if b.price > b.middle ∨ b.price > b.upper then 0 else -1
  else state

/-- The loop of apply_hysteresis_numba from index 1 on: each iteration
updates the state by hstep and emits it. -/
def hrun (state : ℚ) : List HBar → List ℚ
  | [] => []
  | b :: bs =>
    let s := hstep state b
    s :: hrun s bs

/-- apply_hysteresis_numba: signal is initialised to zeros, the loop runs
from index 1 (bar 0 is never examined and its output stays 0). -/
def applyHysteresis : List HBar → List ℚ
  | [] => []
  | _ :: bs => 0 :: hrun 0 bs

/-- Adjacent bars never hold opposite non-zero labels.  Decidable so that
it can be evaluated on concrete outputs. -/
def noDirectReversal : List ℚ → Prop
  | a :: b :: rest => ¬(a = 1 ∧ b = -1) ∧ ¬(a = -1 ∧ b = 1) ∧ noDirectReversal (b :: rest)
  | _ => True

instance : DecidablePred noDirectReversal := by
  intro l
  match l with
  | [] => exact isTrue trivial
  | [_] => exact isTrue trivial
  | a :: b :: rest =>
    have : Decidable (noDirectReversal (b :: rest)) := instDecidablePredListRatNoDirectReversal (b :: rest)
    exact instDecidableAnd

/-- The hysteresis state only ever moves between a non-zero value and 0,
never directly between 1 and -1. -/
lemma hstep_no_flip (s : ℚ) (b : HBar) :
    ¬(s = 1 ∧ hstep s b = -1) ∧ ¬(s = -1 ∧ hstep s b = 1) := by
  constructor
  · rintro ⟨rfl, h⟩
    simp only [hstep] at h
    norm_num at h
    split at h <;> norm_num at h
  · rintro ⟨rfl, h⟩
    simp only [hstep] at h
    norm_num at h
    split at h <;> norm_num at h

lemma hrun_no_flip (s : ℚ) (bs : List HBar) :
    noDirectReversal (s :: hrun s bs) := by
  induction bs generalizing s with
  | nil => simp [hrun, noDirectReversal]
  | cons b bs ih =>
    have h := hstep_no_flip s b
    simp only [hrun, noDirectReversal]
    exact ⟨fun hc => h.1 hc, fun hc => h.2 hc, ih (hstep s b)⟩

/-! ### calculate_chandelier_exit and apply_chandelier_exit_to_signal
(src/strategies/alm/numba_logic.py, lines 65-181)

One bar of price data for the Chandelier computation. -/

structure CBar where
  high : ℚ
  low : ℚ
  close : ℚ
  atr : ℚ
deriving Repr, DecidableEq

/-- The loop state of calculate_chandelier_exit: entry_idx (-1 in the source
is none here), highest_high and lowest_low (np.nan is none; a comparison
against a missing value is false, as for NaN). -/
structure ChState where
  entryIdx : Option ℕ
  highestHigh : Option ℚ
  lowestLow : Option ℚ
deriving Repr, DecidableEq

/-- One iteration of calculate_chandelier_exit: returns the (stop_long,
stop_short) pair written at this index (missing = NaN) and the new state.
On the first bar of a position (entry_idx still unset) the extremum is
seeded and no stop is written; afterwards the extremum is updated by
comparison (false against NaN, which therefore sticks) and the stop is the
extremum minus (long) or plus (short) k*atr.  A zero-signal bar resets
everything. -/
def chStep (k : ℚ) (st : ChState) (i : ℕ) (b : CBar) (s : ℚ) :
    (Option ℚ × Option ℚ) × ChState :=
  if s = 1 then
    match st.entryIdx with
    | none => ((none, none), ⟨some i, some b.high, st.lowestLow⟩)
    | some e =>
      match st.highestHigh with
      | none => ((none, none), ⟨some e, none, st.lowestLow⟩)
      | some v =>
        let hh := if b.high > v then b.high else v
        ((some (hh - k * b.atr), none), ⟨some e, some hh, st.lowestLow⟩)
  else if s = -1 then
    match st.entryIdx with
    | none => ((none, none), ⟨some i, st.highestHigh, some b.low⟩)
    | some e =>
      match st.lowestLow with
      | none => ((none, none), ⟨some e, st.highestHigh, none⟩)
      | some v =>
        let ll := if b.low < v then b.low else v
        ((none, some (ll + k * b.atr)), ⟨some e, st.highestHigh, some ll⟩)
  else ((none, none), ⟨none, none, none⟩)

def chGo (k : ℚ) : List (CBar × ℚ) → ℕ → ChState → List (Option ℚ × Option ℚ)
  | [], _, _ => []
  | p :: rest, i, st =>
    (chStep k st i p.1 p.2).1 :: chGo k rest (i + 1) (chStep k st i p.1 p.2).2

/-- calculate_chandelier_exit over (bar, signal) rows: the per-index
(stop_long, stop_short) arrays. -/
def calculateChandelierExit (k : ℚ) (bars : List (CBar × ℚ)) :
    List (Option ℚ × Option ℚ) :=
  chGo k bars 0 ⟨none, none, none⟩

/-- The loop state after each bar of calculate_chandelier_exit. -/
def chStates (k : ℚ) : List (CBar × ℚ) → ℕ → ChState → List ChState
  | [], _, _ => []
  | p :: rest, i, st =>
    (chStep k st i p.1 p.2).2 :: chStates k rest (i + 1) (chStep k st i p.1 p.2).2

/-- The loop state after a whole block of bars. -/
def chStateAfter (k : ℚ) : List (CBar × ℚ) → ℕ → ChState → ChState
  | [], _, st => st
  | p :: rest, i, st => chStateAfter k rest (i + 1) (chStep k st i p.1 p.2).2

/-- The per-index body of apply_chandelier_exit_to_signal: a long is cut to
0 when stop_long is present and close < stop_long, a short when stop_short
is present and close > stop_short; other signals pass through. -/
def chandelierCut (close s : ℚ) (stopL stopS : Option ℚ) : ℚ :=
  if s = 1 then
    match stopL with
    | some st => if close < st then 0 else s
    | none => s
  else if s = -1 then
    match stopS with
    | some st => if close > st then 0 else s
    | none => s
  else s

/-- apply_chandelier_exit_to_signal over rows (close, signal, stop_long,
stop_short). -/
def applyChandelierToSignal (rows : List (ℚ × ℚ × Option ℚ × Option ℚ)) : List ℚ :=
  rows.map fun r => chandelierCut r.1 r.2.1 r.2.2.1 r.2.2.2

/-- The composition used by build_alm_strategy_advanced: compute the stops
from the (gated) signal, then force the signal flat where a stop is hit. -/
def applyChandelierPipeline (k : ℚ) (bars : List (CBar × ℚ)) : List ℚ :=
  applyChandelierToSignal ((bars.zip (calculateChandelierExit k bars)).map
    fun p => (p.1.1.close, p.1.2, p.2.1, p.2.2))

/-! ### apply_signal_persistence_filter, forward_fill mode
(src/strategies/alm/strategy_optimized.py, lines 57-73)

The loop writes into a zero-initialised array `filtered` of the input's
length, tracking `signal_start`, the index where the current non-zero run
began.  On a non-zero bar: if no run is open, open one at the current index;
otherwise, once `i - signal_start >= min_periods - 1`, overwrite slots
`signal_start..i` with the current value.  On a zero bar: close the run and
write 0 at the current index. -/

/-- Functional form of the slice assignment filtered[a:b+1] = v, carrying the
index offset of the list head. -/
def setRangeGo (a b : ℕ) (v : ℚ) : ℕ → List ℚ → List ℚ
  | _, [] => []
  | i, x :: xs => (if a ≤ i ∧ i ≤ b then v else x) :: setRangeGo a b v (i + 1) xs

def setRange (l : List ℚ) (a b : ℕ) (v : ℚ) : List ℚ := setRangeGo a b v 0 l

/-- One iteration of the forward_fill loop.  The accumulator is
(filtered array, current index, signal_start). -/
def ffStep (m : ℤ) (acc : List ℚ × ℕ × Option ℕ) (v : ℚ) : List ℚ × ℕ × Option ℕ :=
  let (arr, i, start) := acc
  if v ≠ 0 then
    match start with
    | none => (arr, i + 1, some i)
    | some s =>
      if (i : ℤ) - s ≥ m - 1 then (setRange arr s i v, i + 1, some s)
      else (arr, i + 1, some s)
  else (setRange arr i i 0, i + 1, none)

/-- The whole forward_fill loop as a left fold over the input values. -/
def ffProc (m : ℤ) (acc : List ℚ × ℕ × Option ℕ) (values : List ℚ) :
    List ℚ × ℕ × Option ℕ :=
  values.foldl (ffStep m) acc

/-- apply_signal_persistence_filter with method='forward_fill' applied to one
instrument's value series. -/
def persistenceFilterFF (m : ℤ) (values : List ℚ) : List ℚ :=
  (ffProc m (List.replicate values.length 0, 0, none) values).1

/-- The state of the filtered array after the first k loop iterations (the
array has the full input length throughout, as in the source). -/
def ffAfter (m : ℤ) (values : List ℚ) (k : ℕ) : List ℚ :=
  (ffProc m (List.replicate values.length 0, 0, none) (values.take k)).1

/-! ### apply_signal_strength_filter
(src/strategies/alm/strategy_optimized.py, lines 111-139)

np.where(|factor| >= threshold, factor, 0), a pointwise map. -/

def strengthCut (threshold v : ℚ) : ℚ := if qabs v ≥ threshold then v else 0

def strengthFilter (threshold : ℚ) (values : List ℚ) : List ℚ :=
  values.map (strengthCut threshold)

/-! ### apply_min_holding_period_filter
(src/strategies/alm/strategy_optimized.py, lines 165-208)

State: last_position (sign of the held position, 0 if flat) and
position_start (index the position was opened at).  Every iteration writes
filtered[i]; the only read of the array is filtered[i-1], so the fold
carries the previously emitted value. -/

def mhStep (m : ℤ) (st : ℚ × Option ℕ) (i : ℕ) (prev v : ℚ) :
    ℚ × (ℚ × Option ℕ) :=
  let (lastPos, posStart) := st
  let cur := qsign v
  if cur = 0 then
    if lastPos ≠ 0 then
      match posStart with
      | some ps =>
        if (i : ℤ) - ps ≥ m then (0, (0, none)) else (prev, (lastPos, posStart))
      | none => (prev, (lastPos, posStart))
    else (0, (lastPos, posStart))
  else if cur ≠ lastPos then
    if lastPos = 0 then (v, (cur, some i))
    else
      match posStart with
      | some ps =>
        if (i : ℤ) - ps ≥ m then (v, (cur, some i)) else (prev, (lastPos, posStart))
      | none => (prev, (lastPos, posStart))
  else
    (v, (lastPos, if posStart = none then some i else posStart))

def mhGo (m : ℤ) : List ℚ → ℕ → ℚ → ℚ × Option ℕ → List ℚ
  | [], _, _, _ => []
  | v :: rest, i, prev, st =>
    let out := (mhStep m st i prev v).1
    out :: mhGo m rest (i + 1) out (mhStep m st i prev v).2

/-- apply_min_holding_period_filter applied to one instrument's series
(min_holding_hours = m; at index 0 the value filtered[i-1] is read as 0). -/
def minHoldingFilter (m : ℤ) (values : List ℚ) : List ℚ :=
  mhGo m values 0 0 (0, none)

/-! ### apply_cooldown_filter
(src/strategies/alm/strategy_optimized.py, lines 243-270)

State: last_position and last_close_time.  A close event is registered when
a position was held, the current signal is 0 and the previous bar's signal
was non-zero; while i - last_close_time < cooldown_hours the output is
forced to 0, otherwise it is the input value. -/

def cdStep (c : ℤ) (st : ℚ × Option ℕ) (i : ℕ) (prevSign v : ℚ) :
    ℚ × (ℚ × Option ℕ) :=
  let (lastPos, lastClose) := st
  let cur := qsign v
  let lastClose' := if lastPos ≠ 0 ∧ cur = 0 ∧ prevSign ≠ 0 then some i else lastClose
  let out := match lastClose' with
    | some t => if (i : ℤ) - t < c then 0 else v
    | none => v
  (out, (if cur ≠ 0 then cur else lastPos, lastClose'))

def cdGo (c : ℤ) : List ℚ → ℕ → ℚ → ℚ × Option ℕ → List ℚ
  | [], _, _, _ => []
  | v :: rest, i, prevSign, st =>
    (cdStep c st i prevSign v).1 :: cdGo c rest (i + 1) (qsign v) (cdStep c st i prevSign v).2

/-- apply_cooldown_filter applied to one instrument's series
(cooldown_hours = c; prev_signal is 0 at index 0). -/
def cooldownFilter (c : ℤ) (values : List ℚ) : List ℚ :=
  cdGo c values 0 0 (0, none)

/-! ### Cooldown filter lemmas -/

/-- cdStep from a state whose last_close_time is set: the close time stays
set (either refreshed to the current index or kept), and the output is
gated by the cooldown test against it. -/
lemma cdStep_some (c : ℤ) (lp ps v : ℚ) (i t'' : ℕ) :
    ∃ u : ℕ, (u = i ∨ u = t'') ∧
      cdStep c (lp, some t'') i ps v =
        ((if (i : ℤ) - u < c then 0 else v),
         (if qsign v ≠ 0 then qsign v else lp, some u)) := by
  by_cases hcl : lp ≠ 0 ∧ qsign v = 0 ∧ ps ≠ 0
  · exact ⟨i, Or.inl rfl, by simp only [cdStep, if_pos hcl]⟩
  · exact ⟨t'', Or.inr rfl, by simp only [cdStep, if_neg hcl]⟩

/-- Once the cooldown state records a close at time t'' at or after t, every
bar at an index i with i < t + c is forced to 0. -/
lemma cdHold (c : ℤ) (rest : List ℚ) :
    ∀ (i t t'' : ℕ) (ps lp : ℚ), t ≤ t'' → t ≤ i →
      ∀ (j : ℕ) (x : ℚ), (i : ℤ) + j < t + c →
      (cdGo c rest i ps (lp, some t'')).get? j = some x → x = 0 := by
  induction rest with
  | nil =>
    intro i t t'' ps lp h1 h2 j x h3 h4
    simp [cdGo] at h4
  | cons v rest ih =>
    intro i t t'' ps lp h1 h2 j x h3 h4
    simp only [cdGo] at h4
    obtain ⟨u, hu, hstep⟩ := cdStep_some c lp ps v i t''
    have htu : t ≤ u := by rcases hu with rfl | rfl <;> omega
    have hgate : (i : ℤ) - u < c := by
      rcases hu with rfl | rfl <;> omega
    rw [hstep, if_pos hgate] at h4
    cases j with
    | zero =>
      simp only [List.get?_cons_zero, Option.some.injEq] at h4
      exact h4.symm
    | succ k =>
      simp only [List.get?_cons_succ] at h4
      exact ih (i + 1) t u (qsign v) _ htu (by omega) k x (by push_cast; push_cast at h3; omega) h4

/-- From any state, if the input holds a non-zero value at some bar and 0 at
the next, the filter output is 0 on the cooldown window that starts at the
zero bar. -/
lemma cdMain (c : ℤ) (a : ℚ) (post : List ℚ) (ha : qsign a ≠ 0) :
    ∀ (pre : List ℚ) (i : ℕ) (ps lp : ℚ) (lc : Option ℕ),
      ∀ (j : ℕ) (x : ℚ), (j : ℤ) < c →
      (cdGo c (pre ++ a :: 0 :: post) i ps (lp, lc)).get? (pre.length + 1 + j) = some x →
      x = 0 := by
  intro pre
  induction pre with
  | nil =>
    intro i ps lp lc j x hj h4
    have hidx : ([] : List ℚ).length + 1 + j = j + 1 := by simp [Nat.add_comm]
    rw [List.nil_append, hidx] at h4
    simp only [cdGo] at h4
    -- first step: the bar a, with qsign a ≠ 0; no close event, lastPos := qsign a
    have hs1 : (cdStep c (lp, lc) i ps a).2 = (qsign a, lc) := by
      simp [cdStep, ha]
    rw [hs1, List.get?_cons_succ] at h4
    -- second step: the zero bar, close event fires and the output is 0
    have hq0 : qsign (0 : ℚ) = 0 := by norm_num [qsign]
    have hs2 : cdStep c (qsign a, lc) (i + 1) (qsign a) 0 =
        (0, (qsign a, some (i + 1))) := by
      simp [cdStep, hq0, ha]
    rw [hs2] at h4
    cases j with
    | zero =>
      simp only [List.get?_cons_zero, Option.some.injEq] at h4
      exact h4.symm
    | succ k =>
      simp only [List.get?_cons_succ, hq0] at h4
      exact cdHold c post (i + 2) (i + 1) (i + 1) 0 (qsign a) le_rfl (by omega)
        k x (by push_cast; push_cast at hj; omega) h4
  | cons y pre ih =>
    intro i ps lp lc j x hj h4
    rw [List.cons_append] at h4
    simp only [cdGo, List.length_cons] at h4
    have hidx : pre.length + 1 + 1 + j = (pre.length + 1 + j) + 1 := by omega
    rw [hidx, List.get?_cons_succ] at h4
    exact ih (i + 1) (qsign y) (cdStep c (lp, lc) i ps y).2.1
      (cdStep c (lp, lc) i ps y).2.2 j x hj h4

/-! ### Min-holding filter lemmas -/

/-- While a position (sign s, opened at bar t) is within its minimum holding
window, one step of the min-holding filter emits a value of sign s and
leaves the position state unchanged: a zero or opposite-sign signal is
overridden by the previous output. -/
lemma mhStep_hold (m : ℤ) (s prev v : ℚ) (i t : ℕ)
    (hprev : qsign prev = s) (hs : s ≠ 0) (hin : (i : ℤ) - t < m) :
    qsign (mhStep m (s, some t) i prev v).1 = s ∧
    (mhStep m (s, some t) i prev v).2 = (s, some t) := by
  simp only [mhStep]
  by_cases h0 : qsign v = 0
  · simp only [h0, if_pos rfl, if_pos hs, hs, ite_false, if_neg (by omega : ¬((i : ℤ) - t ≥ m))]
    simp [hprev, hs]
  · by_cases hvs : qsign v = s
    · simp [h0, hvs, hs]
    · simp only [h0, if_neg h0, hvs, ite_false, if_neg hs,
        if_neg (by omega : ¬((i : ℤ) - t ≥ m))]
      simp [hprev, h0, hvs, hs]

/-- Within the minimum holding window, every output bar of mhGo carries the
sign of the open position. -/
lemma mhHold (m : ℤ) (rest : List ℚ) :
    ∀ (i t : ℕ) (prev s : ℚ), qsign prev = s → s ≠ 0 →
      ∀ (j : ℕ) (x : ℚ), (i : ℤ) + j < t + m →
      (mhGo m rest i prev (s, some t)).get? j = some x → qsign x = s := by
  induction rest with
  | nil =>
    intro i t prev s h1 h2 j x h3 h4
    simp [mhGo] at h4
  | cons v rest ih =>
    intro i t prev s h1 h2 j x h3 h4
    simp only [mhGo] at h4
    obtain ⟨hout, hst⟩ := mhStep_hold m s prev v i t h1 h2 (by omega)
    rw [hst] at h4
    cases j with
    | zero =>
      simp only [List.get?_cons_zero, Option.some.injEq] at h4
      rw [← h4]; exact hout
    | succ k =>
      simp only [List.get?_cons_succ] at h4
      exact ih (i + 1) t (mhStep m (s, some t) i prev v).1 s hout h2 k x
        (by push_cast; push_cast at h3; omega) h4

/-! ### apply_ultra_wide_hysteresis
(src/strategies/alm/strategy_ultra_conservative.py, lines 39-123)

Per-instrument loop over (timestamp, score) rows.  State: current_signal
(1, 0 or -1) and entry_timestamp.  If a position is open and has been held
less than min_holding_periods (timestamps in hours), the signal is forced
to carry over; otherwise the Schmitt-trigger logic runs: enter long when
score > entry_threshold, short when score < -entry_threshold, exit a long
when score < exit_threshold, a short when score > -exit_threshold.  No
parameter validation of any kind is performed. -/

def uwHyst (entry exitT : ℚ) (cur : ℚ) (ets : Option ℚ) (ts sc : ℚ) :
    ℚ × (ℚ × Option ℚ) :=
  if cur = 0 then
    if sc > entry then (1, (1, some ts))
    else if sc < -entry then (-1, (-1, some ts))
    else (0, (0, ets))
  else if cur = 1 then
    if sc < exitT then (0, (0, none)) else (1, (1, ets))
  else if cur = -1 then
    if sc > -exitT then (0, (0, none)) else (-1, (-1, ets))
  else (cur, (cur, ets))

def uwStep (entry exitT mh : ℚ) (st : ℚ × Option ℚ) (b : ℚ × ℚ) :
    ℚ × (ℚ × Option ℚ) :=
  match st.2 with
  | some e =>
    if b.1 - e < mh then (st.1, (st.1, some e))
    else uwHyst entry exitT st.1 (some e) b.1 b.2
  | none => uwHyst entry exitT st.1 none b.1 b.2

def uwGo (entry exitT mh : ℚ) : List (ℚ × ℚ) → ℚ × Option ℚ → List ℚ
  | [], _ => []
  | b :: rest, st =>
    (uwStep entry exitT mh st b).1 ::
      uwGo entry exitT mh rest (uwStep entry exitT mh st b).2

/-- apply_ultra_wide_hysteresis on one instrument's (timestamp, score)
rows, timestamps measured in hours. -/
def uwHysteresis (entry exitT mh : ℚ) (bars : List (ℚ × ℚ)) : List ℚ :=
  uwGo entry exitT mh bars (0, none)

/-! ### Regime gate (src/strategies/alm/regime.py lines 92-99 and
src/strategies/alm/strategy_advanced.py lines 283-295)

Comparisons against a possibly-missing (NaN) indicator value, false when
the value is missing, as IEEE comparisons are for NaN. -/

def cmpLT : Option ℚ → ℚ → Bool
  | none, _ => false
  | some x, c => decide (x < c)

def cmpGT : Option ℚ → ℚ → Bool
  | none, _ => false
  | some x, c => decide (x > c)

/-- The combined regime filter of detect_regime:
((chop < 50) and (adx > adx_threshold_strong)) as a float (1 = trading
permitted, 0 = forbidden). -/
def regimeFilterVal (adxStrong : ℚ) (chop adx : Option ℚ) : ℚ :=
  if cmpLT chop 50 && cmpGT adx adxStrong then 1 else 0

/-- The state-filter application of build_alm_strategy_advanced: the raw
signal multiplied by the regime-gate value looked up for the bar, with a
missing row defaulting to 0. -/
def gatedScore (raw : ℚ) (gate : Option ℚ) : ℚ := raw * gate.getD 0

/-- Per-bar gating of a whole raw-signal series by a gate series. -/
def gateSignals (raw : List ℚ) (gates : List (Option ℚ)) : List ℚ :=
  List.zipWith (fun r g => gatedScore r g) raw gates

/-! ### List indexing helpers -/

lemma get?_append_add {α : Type} : ∀ (xs ys : List α) (n : ℕ),
    (xs ++ ys).get? (xs.length + n) = ys.get? n := by
  intro xs
  induction xs with
  | nil => intro ys n; simp
  | cons x xs ih =>
    intro ys n
    have : (x :: xs).length + n = (xs.length + n) + 1 := by
      simp [List.length_cons]; omega
    rw [List.cons_append, this, List.get?_cons_succ]
    exact ih ys n

lemma get?_zip_both {α β : Type} : ∀ (l1 : List α) (l2 : List β) (n : ℕ) (a : α) (b : β),
    l1.get? n = some a → l2.get? n = some b → (l1.zip l2).get? n = some (a, b) := by
  intro l1
  induction l1 with
  | nil => intro l2 n a b h1; simp at h1
  | cons x xs ih =>
    intro l2 n a b h1 h2
    cases l2 with
    | nil => simp at h2
    | cons y ys =>
      cases n with
      | zero =>
        simp only [List.get?_cons_zero, Option.some.injEq] at h1 h2
        simp [List.zip_cons_cons, h1, h2]
      | succ m =>
        simp only [List.get?_cons_succ] at h1 h2
        simpa [List.zip_cons_cons] using ih ys m a b h1 h2

/-! ### Chandelier lemmas -/

lemma chGo_length (k : ℚ) : ∀ (l : List (CBar × ℚ)) (i : ℕ) (st : ChState),
    (chGo k l i st).length = l.length := by
  intro l
  induction l with
  | nil => intro i st; rfl
  | cons p rest ih => intro i st; simp [chGo, ih]

lemma chGo_append (k : ℚ) : ∀ (xs ys : List (CBar × ℚ)) (i : ℕ) (st : ChState),
    chGo k (xs ++ ys) i st =
      chGo k xs i st ++ chGo k ys (i + xs.length) (chStateAfter k xs i st) := by
  intro xs
  induction xs with
  | nil => intro ys i st; simp [chGo, chStateAfter]
  | cons p rest ih =>
    intro ys i st
    have hc : (p :: rest) ++ ys = p :: (rest ++ ys) := rfl
    rw [hc]
    simp only [chGo, chStateAfter, List.length_cons]
    rw [ih ys (i + 1) (chStep k st i p.1 p.2).2, List.cons_append]
    have : i + (rest.length + 1) = i + 1 + rest.length := by omega
    rw [this]

/-- A block whose last bar has signal 0 leaves the Chandelier state fully
reset, whatever came before. -/
lemma chStateAfter_last_zero (k : ℚ) : ∀ (xs : List (CBar × ℚ)) (b : CBar) (i : ℕ) (st : ChState),
    chStateAfter k (xs ++ [(b, 0)]) i st = ⟨none, none, none⟩ := by
  intro xs
  induction xs with
  | nil =>
    intro b i st
    simp [chStateAfter, chStep]
  | cons p rest ih =>
    intro b i st
    simp only [List.cons_append, chStateAfter]
    exact ih b (i + 1) _

/-- Processing a run of signal-1 bars from a state with a set entry index
and a set highest-high: every emitted row has a defined stop_long and no
stop_short. -/
lemma chLongStops (k : ℚ) : ∀ (run : List (CBar × ℚ)), (∀ p ∈ run, p.2 = 1) →
    ∀ (i e : ℕ) (H : ℚ) (ll : Option ℚ) (j : ℕ) (p : CBar × ℚ), run.get? j = some p →
      ∃ st : ℚ, (chGo k run i ⟨some e, some H, ll⟩).get? j = some (some st, none) := by
  intro run
  induction run with
  | nil => intro _ i e H ll j p hj; simp at hj
  | cons q rest ih =>
    intro hall i e H ll j p hj
    have hq1 : q.2 = 1 := hall q (by simp)
    have hstep : chStep k ⟨some e, some H, ll⟩ i q.1 q.2 =
        ((some ((if q.1.high > H then q.1.high else H) - k * q.1.atr), none),
         ⟨some e, some (if q.1.high > H then q.1.high else H), ll⟩) := by
      rw [hq1]; simp [chStep]
    simp only [chGo, hstep]
    cases j with
    | zero => exact ⟨_, rfl⟩
    | succ n =>
      simp only [List.get?_cons_succ] at hj ⊢
      exact ih (fun r hr => hall r (by simp [hr])) (i + 1) e _ ll n p hj

/-- The element of the chandelier pipeline at an index where both the bar
and the stop row exist is the pointwise cut of that bar by that stop row. -/
lemma pipeline_get (k : ℚ) (bars : List (CBar × ℚ)) (n : ℕ)
    (p : CBar × ℚ) (q : Option ℚ × Option ℚ)
    (hp : bars.get? n = some p) (hq : (calculateChandelierExit k bars).get? n = some q) :
    (applyChandelierPipeline k bars).get? n =
      some (chandelierCut p.1.close p.2 q.1 q.2) := by
  unfold applyChandelierPipeline applyChandelierToSignal
  rw [List.map_map, List.get?_map, get?_zip_both bars _ n p q hp hq]
  rfl

lemma mem_zipWith {α β γ : Type} (f : α → β → γ) :
    ∀ (l1 : List α) (l2 : List β) (x : γ), x ∈ List.zipWith f l1 l2 →
      ∃ a ∈ l1, ∃ b ∈ l2, x = f a b := by
  intro l1
  induction l1 with
  | nil => intro l2 x hx; simp at hx
  | cons a as ih =>
    intro l2 x hx
    cases l2 with
    | nil => simp at hx
    | cons b bs =>
      simp only [List.zipWith_cons_cons, List.mem_cons] at hx
      rcases hx with rfl | hx
      · exact ⟨a, by simp, b, by simp, rfl⟩
      · obtain ⟨a', ha', b', hb', rfl⟩ := ih bs x hx
        exact ⟨a', by simp [ha'], b', by simp [hb'], rfl⟩

/-- A series whose signal column is everywhere 0 passes through the
Chandelier cut unchanged: every output is 0. -/
lemma chandelier_all_zero (k : ℚ) (bars : List (CBar × ℚ))
    (h : ∀ p ∈ bars, p.2 = (0 : ℚ)) :
    ∀ x ∈ applyChandelierPipeline k bars, x = 0 := by
  intro x hx
  unfold applyChandelierPipeline applyChandelierToSignal at hx
  rw [List.map_map, List.mem_map] at hx
  obtain ⟨p, hp, rfl⟩ := hx
  have hmem := List.mem_zip hp
  have hz : p.1.2 = 0 := h p.1 hmem.1
  simp only [Function.comp]
  rw [hz]
  norm_num [chandelierCut]

/-! ### Persistence filter lemmas -/

lemma setRangeGo_get? (a b : ℕ) (v : ℚ) :
    ∀ (l : List ℚ) (i t : ℕ),
      (setRangeGo a b v i l).get? t =
        (l.get? t).map (fun x => if a ≤ i + t ∧ i + t ≤ b then v else x) := by
  intro l
  induction l with
  | nil => intro i t; simp [setRangeGo]
  | cons x xs ih =>
    intro i t
    cases t with
    | zero => simp [setRangeGo]
    | succ n =>
      simp only [setRangeGo, List.get?_cons_succ]
      rw [ih (i + 1) n]
      have : i + 1 + n = i + (n + 1) := by omega
      rw [this]

lemma setRange_get? (l : List ℚ) (a b : ℕ) (v : ℚ) (t : ℕ) :
    (setRange l a b v).get? t =
      (l.get? t).map (fun x => if a ≤ t ∧ t ≤ b then v else x) := by
  unfold setRange
  rw [setRangeGo_get? a b v l 0 t, Nat.zero_add]

lemma setRange_get?_out (l : List ℚ) (a b : ℕ) (v : ℚ) (t : ℕ)
    (h : ¬(a ≤ t ∧ t ≤ b)) : (setRange l a b v).get? t = l.get? t := by
  rw [setRange_get?]
  cases l.get? t with
  | none => rfl
  | some x => simp [h]

lemma ffProc_cons (m : ℤ) (acc : List ℚ × ℕ × Option ℕ) (v : ℚ) (vs : List ℚ) :
    ffProc m acc (v :: vs) = ffProc m (ffStep m acc v) vs := rfl

lemma ffStep_zero (m : ℤ) (arr : List ℚ) (i : ℕ) (st : Option ℕ) :
    ffStep m (arr, i, st) 0 = (setRange arr i i 0, i + 1, none) := by
  simp [ffStep]

lemma ffStep_nz_none (m : ℤ) (arr : List ℚ) (i : ℕ) (v : ℚ) (hv : v ≠ 0) :
    ffStep m (arr, i, none) v = (arr, i + 1, some i) := by
  simp [ffStep, hv]

lemma ffStep_nz_fire (m : ℤ) (arr : List ℚ) (i s : ℕ) (v : ℚ) (hv : v ≠ 0)
    (hc : (i : ℤ) - s ≥ m - 1) :
    ffStep m (arr, i, some s) v = (setRange arr s i v, i + 1, some s) := by
  simp [ffStep, hv, hc]

lemma ffStep_nz_hold (m : ℤ) (arr : List ℚ) (i s : ℕ) (v : ℚ) (hv : v ≠ 0)
    (hc : ¬((i : ℤ) - s ≥ m - 1)) :
    ffStep m (arr, i, some s) v = (arr, i + 1, some s) := by
  simp [ffStep, hv, hc]

lemma ffProc_idx (m : ℤ) : ∀ (vs : List ℚ) (arr : List ℚ) (i : ℕ) (st : Option ℕ),
    (ffProc m (arr, i, st) vs).2.1 = i + vs.length := by
  intro vs
  induction vs with
  | nil => intro arr i st; rfl
  | cons v rest ih =>
    intro arr i st
    rw [ffProc_cons]
    rcases hv : decide (v = 0) with _ | _
    · have hv' : v ≠ 0 := of_decide_eq_false hv
      cases st with
      | none =>
        rw [ffStep_nz_none m arr i v hv', ih]
        simp; omega
      | some s =>
        by_cases hc : (i : ℤ) - s ≥ m - 1
        · rw [ffStep_nz_fire m arr i s v hv' hc, ih]; simp; omega
        · rw [ffStep_nz_hold m arr i s v hv' hc, ih]; simp; omega
    · have hv' : v = 0 := of_decide_eq_true hv
      subst hv'
      rw [ffStep_zero, ih]
      simp; omega

/-- Bars at or beyond the not-yet-processed region are never written. -/
lemma ffProc_preserve_ge (m : ℤ) : ∀ (vs : List ℚ) (arr : List ℚ) (i : ℕ) (st : Option ℕ),
    (∀ s, st = some s → s ≤ i) → ∀ (t : ℕ), i + vs.length ≤ t →
    ((ffProc m (arr, i, st) vs).1).get? t = arr.get? t := by
  intro vs
  induction vs with
  | nil => intro arr i st hst t ht; rfl
  | cons v rest ih =>
    intro arr i st hst t ht
    have hlen : i + (v :: rest).length = i + 1 + rest.length := by simp; omega
    rw [hlen] at ht
    rw [ffProc_cons]
    by_cases hv : v = 0
    · subst hv
      rw [ffStep_zero]
      rw [ih (setRange arr i i 0) (i + 1) none (by intro s hs; cases hs) t ht]
      exact setRange_get?_out arr i i 0 t (by omega)
    · cases st with
      | none =>
        rw [ffStep_nz_none m arr i v hv]
        exact ih arr (i + 1) (some i) (by intro s hs; injection hs with h; omega) t ht
      | some s =>
        have hsi : s ≤ i := hst s rfl
        by_cases hc : (i : ℤ) - s ≥ m - 1
        · rw [ffStep_nz_fire m arr i s v hv hc]
          rw [ih (setRange arr s i v) (i + 1) (some s)
            (by intro s' hs'; injection hs' with h; omega) t ht]
          exact setRange_get?_out arr s i v t (by omega)
        · rw [ffStep_nz_hold m arr i s v hv hc]
          exact ih arr (i + 1) (some s) (by intro s' hs'; injection hs' with h; omega) t ht

/-- From a state whose open run (if any) started at or after b, bars below
b are never written. -/
lemma ffProc_preserve_lt (m : ℤ) : ∀ (vs : List ℚ) (arr : List ℚ) (i : ℕ) (st : Option ℕ)
    (b : ℕ), b ≤ i → (∀ s, st = some s → b ≤ s) → ∀ (t : ℕ), t < b →
    ((ffProc m (arr, i, st) vs).1).get? t = arr.get? t := by
  intro vs
  induction vs with
  | nil => intro arr i st b hb hst t ht; rfl
  | cons v rest ih =>
    intro arr i st b hb hst t ht
    rw [ffProc_cons]
    by_cases hv : v = 0
    · subst hv
      rw [ffStep_zero]
      rw [ih (setRange arr i i 0) (i + 1) none b (by omega) (by intro s hs; cases hs) t ht]
      exact setRange_get?_out arr i i 0 t (by omega)
    · cases st with
      | none =>
        rw [ffStep_nz_none m arr i v hv]
        exact ih arr (i + 1) (some i) b (by omega)
          (by intro s hs; injection hs with h; omega) t ht
      | some s =>
        have hbs : b ≤ s := hst s rfl
        by_cases hc : (i : ℤ) - s ≥ m - 1
        · rw [ffStep_nz_fire m arr i s v hv hc]
          rw [ih (setRange arr s i v) (i + 1) (some s) b (by omega)
            (by intro s' hs'; injection hs' with h; omega) t ht]
          exact setRange_get?_out arr s i v t (by omega)
        · rw [ffStep_nz_hold m arr i s v hv hc]
          exact ih arr (i + 1) (some s) b (by omega)
            (by intro s' hs'; injection hs' with h; omega) t ht

/-- While inside a non-zero run the loop state keeps its start index and
advances its counter. -/
lemma ffProc_state_some (m : ℤ) : ∀ (tail : List ℚ), (∀ u ∈ tail, u ≠ 0) →
    ∀ (arr : List ℚ) (i e : ℕ),
    (ffProc m (arr, i, some e) tail).2 = (i + tail.length, some e) := by
  intro tail
  induction tail with
  | nil => intro _ arr i e; rfl
  | cons u rest ih =>
    intro hnz arr i e
    have hu : u ≠ 0 := hnz u (by simp)
    rw [ffProc_cons]
    by_cases hc : (i : ℤ) - e ≥ m - 1
    · rw [ffStep_nz_fire m arr i e u hu hc, ih (fun x hx => hnz x (by simp [hx]))]
      simp; omega
    · rw [ffStep_nz_hold m arr i e u hu hc, ih (fun x hx => hnz x (by simp [hx]))]
      simp; omega

/-- Processing the remainder of a non-zero run that ends with value w, from
a state whose run started at e: a slot t ends up overwritten with w exactly
when the run is long enough for the last bar to fire and t lies in the
written range; otherwise it is untouched. -/
lemma ffRunArr (m : ℤ) : ∀ (body : List ℚ) (w : ℚ), w ≠ 0 → (∀ u ∈ body, u ≠ 0) →
    ∀ (arr : List ℚ) (i e : ℕ), e < i → ∀ t,
    ((ffProc m (arr, i, some e) (body ++ [w])).1).get? t =
      if ((i + body.length : ℕ) : ℤ) - e ≥ m - 1 ∧ e ≤ t ∧ t < i + body.length + 1
      then (arr.get? t).map (fun _ => w)
      else arr.get? t := by
  intro body
  induction body with
  | nil =>
    intro w hw _ arr i e hei t
    rw [List.nil_append, ffProc_cons]
    by_cases hc : (i : ℤ) - e ≥ m - 1
    · rw [ffStep_nz_fire m arr i e w hw hc]
      show (setRange arr e i w).get? t = _
      rw [setRange_get?]
      have hcond : (((i + ([] : List ℚ).length : ℕ) : ℤ) - e ≥ m - 1) = True := by
        simp only [List.length_nil, Nat.add_zero]
        exact eq_true hc
      cases harr : arr.get? t with
      | none => simp
      | some x =>
        by_cases hin : e ≤ t ∧ t ≤ i
        · have : ((i + ([] : List ℚ).length : ℕ) : ℤ) - e ≥ m - 1 ∧ e ≤ t ∧ t < i + ([] : List ℚ).length + 1 := by
            refine ⟨by simpa using hc, hin.1, by simp; omega⟩
          simp only [Option.map_some', if_pos hin, if_pos this]
        · have : ¬(((i + ([] : List ℚ).length : ℕ) : ℤ) - e ≥ m - 1 ∧ e ≤ t ∧ t < i + ([] : List ℚ).length + 1) := by
            simp only [List.length_nil, Nat.add_zero]
            intro hcon
            exact hin ⟨hcon.2.1, by omega⟩
          simp only [Option.map_some', if_neg hin, if_neg this]
    · rw [ffStep_nz_hold m arr i e w hw hc]
      show (ffProc m (arr, i + 1, some e) []).1.get? t = _
      have : ¬(((i + ([] : List ℚ).length : ℕ) : ℤ) - e ≥ m - 1 ∧ e ≤ t ∧ t < i + ([] : List ℚ).length + 1) := by
        simp only [List.length_nil, Nat.add_zero]
        intro hcon
        exact hc hcon.1
      rw [if_neg this]
      rfl
  | cons u body' ih =>
    intro w hw hnz arr i e hei t
    have hu : u ≠ 0 := hnz u (by simp)
    have hnz' : ∀ x ∈ body', x ≠ 0 := fun x hx => hnz x (by simp [hx])
    have hL : i + (u :: body').length = (i + 1) + body'.length := by simp; omega
    rw [List.cons_append, ffProc_cons, hL]
    by_cases hc : (i : ℤ) - e ≥ m - 1
    · rw [ffStep_nz_fire m arr i e u hu hc]
      rw [ih w hw hnz' (setRange arr e i u) (i + 1) e (by omega) t]
      by_cases hbig : (((i + 1) + body'.length : ℕ) : ℤ) - e ≥ m - 1 ∧ e ≤ t ∧
          t < (i + 1) + body'.length + 1
      · rw [if_pos hbig, if_pos hbig]
        rw [setRange_get?]
        cases arr.get? t <;> simp
      · rw [if_neg hbig, if_neg hbig]
        apply setRange_get?_out
        intro hin
        apply hbig
        refine ⟨by push_cast; push_cast at hc; omega, hin.1, by omega⟩
    · rw [ffStep_nz_hold m arr i e u hu hc]
      exact ih w hw hnz' arr (i + 1) e (by omega) t

lemma ffProc_append (m : ℤ) (acc : List ℚ × ℕ × Option ℕ) (xs ys : List ℚ) :
    ffProc m acc (xs ++ ys) = ffProc m (ffProc m acc xs) ys := by
  unfold ffProc
  exact List.foldl_append _ _ xs ys

lemma ffProc_start_after_zero (m : ℤ) (acc : List ℚ × ℕ × Option ℕ) (p' : List ℚ) :
    (ffProc m acc (p' ++ [(0 : ℚ)])).2.2 = none := by
  rw [ffProc_append]
  obtain ⟨a, i, s⟩ := ffProc m acc p'
  rw [ffProc_cons, ffStep_zero]
  rfl

/-- The forward-fill loop on pre ++ run ++ post, where run is a maximal
non-zero run (pre empty or ending in a zero bar, post empty or starting
with one): inside the run's index range the result is the run's last value
when the run has at least 2 bars and at least min_periods bars, and the
untouched initial array value otherwise. -/
lemma ffMasterArr (m : ℤ) (pre run post arrInit : List ℚ)
    (hrun : run ≠ [])
    (hnz : ∀ v ∈ run, v ≠ 0)
    (hpre : pre = [] ∨ ∃ p', pre = p' ++ [(0 : ℚ)])
    (hpost : post = [] ∨ ∃ p', post = (0 : ℚ) :: p')
    (t : ℕ) (ht1 : pre.length ≤ t) (ht2 : t < pre.length + run.length) :
    ((ffProc m (arrInit, 0, none) (pre ++ run ++ post)).1).get? t =
      if 2 ≤ run.length ∧ m ≤ (run.length : ℤ)
      then (arrInit.get? t).map (fun _ => run.getLast hrun)
      else arrInit.get? t := by
  rw [List.append_assoc, ffProc_append, ffProc_append]
  -- phase 1: the prefix
  have hidx1 : (ffProc m (arrInit, 0, none) pre).2.1 = pre.length := by
    rw [ffProc_idx]; omega
  have hst1 : (ffProc m (arrInit, 0, none) pre).2.2 = none := by
    rcases hpre with rfl | ⟨p', rfl⟩
    · rfl
    · exact ffProc_start_after_zero m _ p'
  have h1 : ffProc m (arrInit, 0, none) pre =
      ((ffProc m (arrInit, 0, none) pre).1, pre.length, none) := by
    calc ffProc m (arrInit, 0, none) pre
        = ((ffProc m (arrInit, 0, none) pre).1, (ffProc m (arrInit, 0, none) pre).2.1,
            (ffProc m (arrInit, 0, none) pre).2.2) := rfl
      _ = _ := by rw [hidx1, hst1]
  set arr0 := (ffProc m (arrInit, 0, none) pre).1 with harr0
  have harr0t : arr0.get? t = arrInit.get? t := by
    rw [harr0]
    exact ffProc_preserve_ge m pre arrInit 0 none (by intro s hs; cases hs) t (by omega)
  rw [h1]
  -- phase 2: the run
  obtain ⟨v, rtail, rfl⟩ : ∃ v rtail, run = v :: rtail := by
    cases run with
    | nil => exact absurd rfl hrun
    | cons v r => exact ⟨v, r, rfl⟩
  have hv : v ≠ 0 := hnz v (by simp)
  have hnzt : ∀ u ∈ rtail, u ≠ 0 := fun u hu => hnz u (by simp [hu])
  rw [ffProc_cons, ffStep_nz_none m arr0 pre.length v hv]
  rcases List.eq_nil_or_concat rtail with rfl | ⟨body', w, hbw⟩
  swap
  rw [List.concat_eq_append] at hbw
  subst hbw
  rotate_left
  · -- a one-bar run: nothing is ever written, the window value is untouched
    have hcond : ¬(2 ≤ ([v] : List ℚ).length ∧ m ≤ (([v] : List ℚ).length : ℤ)) := by
      simp
    rw [if_neg hcond]
    have hstate2 : ffProc m (arr0, pre.length + 1, some pre.length) ([] : List ℚ) =
        (arr0, pre.length + 1, some pre.length) := rfl
    rw [hstate2]
    -- phase 3: the suffix does not touch t < pre.length + 1
    have ht2' : t < pre.length + 1 := by simpa using ht2
    rcases hpost with rfl | ⟨p', rfl⟩
    · simpa [harr0t] using harr0t
    · rw [ffProc_cons, ffStep_zero]
      rw [ffProc_preserve_lt m p' _ (pre.length + 2) none (pre.length + 1 + 1)
        (by omega) (by intro s hs; cases hs) t (by omega)]
      rw [setRange_get?_out _ _ _ _ t (by omega)]
      exact harr0t
  · -- a run of at least two bars ending in w
    have hw : w ≠ 0 := hnzt w (by simp)
    have hnzb : ∀ u ∈ body', u ≠ 0 := fun u hu => hnzt u (by simp [hu])
    have hlast : (v :: (body' ++ [w])).getLast hrun = w := by
      have h2 : (v :: (body' ++ [w])).getLast? = some w := by
        have hc : v :: (body' ++ [w]) = (v :: body') ++ [w] := rfl
        rw [hc, List.getLast?_concat]
      rw [List.getLast?_eq_getLast _ hrun, Option.some.injEq] at h2
      exact h2
    have hlen : (v :: (body' ++ [w])).length = body'.length + 2 := by simp
    -- the state and array after the run
    have harr1 : (ffProc m (arr0, pre.length + 1, some pre.length) (body' ++ [w])).1.get? t =
        if ((pre.length + 1 + body'.length : ℕ) : ℤ) - pre.length ≥ m - 1 ∧
            pre.length ≤ t ∧ t < pre.length + 1 + body'.length + 1
        then (arr0.get? t).map (fun _ => w)
        else arr0.get? t :=
      ffRunArr m body' w hw hnzb arr0 (pre.length + 1) pre.length (by omega) t
    have hstate2 : ffProc m (arr0, pre.length + 1, some pre.length) (body' ++ [w]) =
        ((ffProc m (arr0, pre.length + 1, some pre.length) (body' ++ [w])).1,
          pre.length + 1 + (body' ++ [w]).length, some pre.length) := by
      calc ffProc m (arr0, pre.length + 1, some pre.length) (body' ++ [w])
          = ((ffProc m (arr0, pre.length + 1, some pre.length) (body' ++ [w])).1,
              (ffProc m (arr0, pre.length + 1, some pre.length) (body' ++ [w])).2) := rfl
        _ = _ := by
            rw [ffProc_state_some m (body' ++ [w]) (fun u hu => hnzt u hu) arr0
              (pre.length + 1) pre.length]
    rw [hstate2]
    set arr1 := (ffProc m (arr0, pre.length + 1, some pre.length) (body' ++ [w])).1 with harr1d
    -- phase 3: the suffix does not touch t
    have ht2' : t < pre.length + 1 + (body' ++ [w]).length := by
      simp only [List.length_append, List.length_cons] at ht2 ⊢
      simp at ht2 ⊢
      omega
    have hfinal : ((ffProc m (arr1, pre.length + 1 + (body' ++ [w]).length, some pre.length)
        post).1).get? t = arr1.get? t := by
      rcases hpost with rfl | ⟨p', rfl⟩
      · rfl
      · rw [ffProc_cons, ffStep_zero]
        rw [ffProc_preserve_lt m p' _ (pre.length + 1 + (body' ++ [w]).length + 1) none
          (pre.length + 1 + (body' ++ [w]).length + 1) (by omega)
          (by intro s hs; cases hs) t (by omega)]
        exact setRange_get?_out _ _ _ _ t (by omega)
    rw [hfinal, harr1d, harr1, harr0t, hlast]
    -- align the two fill conditions
    by_cases hfill : 2 ≤ (v :: (body' ++ [w])).length ∧ m ≤ ((v :: (body' ++ [w])).length : ℤ)
    · rw [if_pos hfill]
      rw [if_pos ?side]
      case side =>
        refine ⟨?_, ht1, ?_⟩
        · have := hfill.2
          rw [hlen] at this
          push_cast at this ⊢
          omega
        · rw [show (v :: (body' ++ [w])).length = body'.length + 2 from hlen] at ht2
          omega
    · rw [if_neg hfill]
      rw [if_neg ?side2]
      case side2 =>
        intro hcon
        apply hfill
        constructor
        · rw [hlen]; omega
        · rw [hlen]
          have := hcon.1
          push_cast at this ⊢
          omega

lemma replicate_get?_lt (n t : ℕ) (ht : t < n) :
    (List.replicate n (0 : ℚ)).get? t = some 0 := by
  induction n generalizing t with
  | zero => omega
  | succ k ih =>
    cases t with
    | zero => rfl
    | succ u =>
      simp only [List.replicate, List.get?_cons_succ]
      exact ih u (by omega)

lemma take_append_add {α : Type} : ∀ (xs ys : List α) (n : ℕ),
    (xs ++ ys).take (xs.length + n) = xs ++ ys.take n := by
  intro xs
  induction xs with
  | nil => intro ys n; simp
  | cons x xs ih =>
    intro ys n
    have : (x :: xs).length + n = (xs.length + n) + 1 := by simp; omega
    rw [List.cons_append, this, List.take_succ_cons, ih]
    rfl

lemma getLast_append_singleton {α : Type} (l : List α) (v : α) (h : l ++ [v] ≠ []) :
    (l ++ [v]).getLast h = v := by
  have h2 : (l ++ [v]).getLast? = some v := List.getLast?_concat l
  rw [List.getLast?_eq_getLast _ h, Option.some.injEq] at h2
  exact h2

lemma qsign_zero : qsign 0 = 0 := by norm_num [qsign]

/-! ### Per-symbol table processing
(src/strategies/alm/strategy_optimized.py: each filter groups the flat
(symbol, factor) table by symbol, applies its per-series loop to each
group's values in row order, and writes the results back at the group's
original row positions.)

The value series of one symbol in a flat table, in row order. -/

def groupOf (d : List (String × ℚ)) (s : String) : List ℚ :=
  (d.filter (fun r => r.1 == s)).map (fun r => r.2)

/-- Row-by-row reconstruction of groupby-apply-concat-reindex: row i of the
output carries its symbol's filtered series at the row's rank within its
symbol group; cnt carries the ranks consumed so far. -/
def applyPerSymbolGo (f : List ℚ → List ℚ) (d : List (String × ℚ)) :
    (String → ℕ) → List (String × ℚ) → List (String × ℚ)
  | _, [] => []
  | cnt, (s, _) :: rest =>
    (s, (f (groupOf d s)).getD (cnt s) 0) ::
      applyPerSymbolGo f d (fun x => if x = s then cnt s + 1 else cnt x) rest

def applyPerSymbol (f : List ℚ → List ℚ) (d : List (String × ℚ)) :
    List (String × ℚ) :=
  applyPerSymbolGo f d (fun _ => 0) d

/-- A pointwise (non-grouped) column transformation, as used by
apply_signal_strength_filter. -/
def tableMap (h : ℚ → ℚ) (d : List (String × ℚ)) : List (String × ℚ) :=
  d.map (fun r => (r.1, h r.2))

/-- The filter chain of build_alm_strategy_optimized on the flat table:
persistence, strength, minimum holding, cooldown. -/
def optimizedTable (p : ℤ) (θ : ℚ) (mh cd : ℤ) (d : List (String × ℚ)) :
    List (String × ℚ) :=
  applyPerSymbol (cooldownFilter cd)
    (applyPerSymbol (minHoldingFilter mh)
      (tableMap (strengthCut θ)
        (applyPerSymbol (persistenceFilterFF p) d)))

/-! ### Length preservation: every filter and the ultra-wide hysteresis
produce one output per input bar, for every parameter value. -/

lemma uwGo_length (entry exitT mh : ℚ) : ∀ (bars : List (ℚ × ℚ)) (st : ℚ × Option ℚ),
    (uwGo entry exitT mh bars st).length = bars.length := by
  intro bars
  induction bars with
  | nil => intro st; rfl
  | cons b rest ih => intro st; simp [uwGo, ih]

lemma mhGo_length (m : ℤ) : ∀ (values : List ℚ) (i : ℕ) (prev : ℚ) (st : ℚ × Option ℕ),
    (mhGo m values i prev st).length = values.length := by
  intro values
  induction values with
  | nil => intro i prev st; rfl
  | cons v rest ih => intro i prev st; simp [mhGo, ih]

lemma cdGo_length (c : ℤ) : ∀ (values : List ℚ) (i : ℕ) (ps : ℚ) (st : ℚ × Option ℕ),
    (cdGo c values i ps st).length = values.length := by
  intro values
  induction values with
  | nil => intro i ps st; rfl
  | cons v rest ih => intro i ps st; simp [cdGo, ih]

lemma setRangeGo_length (a b : ℕ) (v : ℚ) : ∀ (l : List ℚ) (i : ℕ),
    (setRangeGo a b v i l).length = l.length := by
  intro l
  induction l with
  | nil => intro i; rfl
  | cons x xs ih => intro i; simp [setRangeGo, ih]

lemma ffProc_arr_length (m : ℤ) : ∀ (vs : List ℚ) (arr : List ℚ) (i : ℕ) (st : Option ℕ),
    (ffProc m (arr, i, st) vs).1.length = arr.length := by
  intro vs
  induction vs with
  | nil => intro arr i st; rfl
  | cons v rest ih =>
    intro arr i st
    rw [ffProc_cons]
    by_cases hv : v = 0
    · subst hv
      rw [ffStep_zero, ih]
      exact setRangeGo_length _ _ _ arr 0
    · cases st with
      | none => rw [ffStep_nz_none m arr i v hv]; exact ih arr (i + 1) (some i)
      | some s =>
        by_cases hc : (i : ℤ) - s ≥ m - 1
        · rw [ffStep_nz_fire m arr i s v hv hc, ih]
          exact setRangeGo_length _ _ _ arr 0
        · rw [ffStep_nz_hold m arr i s v hv hc]; exact ih arr (i + 1) (some s)

lemma groupOf_cons (s' : String) (v : ℚ) (rest : List (String × ℚ)) (s : String) :
    groupOf ((s', v) :: rest) s =
      if s' = s then v :: groupOf rest s else groupOf rest s := by
  unfold groupOf
  rw [List.filter_cons]
  by_cases h : s' = s
  · simp [h]
  · have hb : ((s', v).1 == s) = false := by
      simpa using h
    simp [hb, h]

lemma range_getD : ∀ (g : List ℚ),
    (List.range g.length).map (fun j => g.getD j 0) = g := by
  intro g
  induction g with
  | nil => rfl
  | cons x xs ih =>
    rw [List.length_cons, List.range_succ_eq_map, List.map_cons, List.map_map]
    have hcomp : ((fun j => (x :: xs).getD j 0) ∘ Nat.succ) = fun j => xs.getD j 0 := by
      funext j
      rfl
    rw [hcomp, ih]
    rfl

lemma groupOf_tableMap (h : ℚ → ℚ) : ∀ (d : List (String × ℚ)) (s : String),
    groupOf (tableMap h d) s = (groupOf d s).map h := by
  intro d
  induction d with
  | nil => intro s; rfl
  | cons r rest ih =>
    intro s
    obtain ⟨s', v⟩ := r
    show groupOf ((s', h v) :: tableMap h rest) s = _
    rw [groupOf_cons, groupOf_cons]
    by_cases hs : s' = s
    · simp [hs, ih]
    · simp [hs, ih]

lemma applyPerSymbolGo_groupOf (f : List ℚ → List ℚ) (d : List (String × ℚ)) (s : String) :
    ∀ (rows : List (String × ℚ)) (cnt : String → ℕ),
    groupOf (applyPerSymbolGo f d cnt rows) s =
      (List.range ((rows.filter (fun r => r.1 == s)).length)).map
        (fun j => (f (groupOf d s)).getD (cnt s + j) 0) := by
  intro rows
  induction rows with
  | nil => intro cnt; rfl
  | cons r rest ih =>
    intro cnt
    obtain ⟨s', v⟩ := r
    show groupOf ((s', (f (groupOf d s')).getD (cnt s') 0) ::
      applyPerSymbolGo f d (fun x => if x = s' then cnt s' + 1 else cnt x) rest) s = _
    rw [groupOf_cons, List.filter_cons]
    by_cases hs : s' = s
    · subst hs
      rw [if_pos rfl]
      have hb : ((s', v).1 == s') = true := by simp
      have hr : (List.range ((List.filter (fun r => r.1 == s') rest).length + 1)).map
          (fun j => (f (groupOf d s')).getD (cnt s' + j) 0) =
          (f (groupOf d s')).getD (cnt s') 0 ::
            (List.range ((List.filter (fun r => r.1 == s') rest).length)).map
              (fun j => (f (groupOf d s')).getD (cnt s' + 1 + j) 0) := by
        rw [List.range_succ_eq_map, List.map_cons, List.map_map]
        have hcomp : ((fun j => (f (groupOf d s')).getD (cnt s' + j) 0) ∘ Nat.succ) =
            (fun j => (f (groupOf d s')).getD (cnt s' + 1 + j) 0) := by
          funext j
          simp only [Function.comp_apply]
          congr 1
          omega
        rw [hcomp]
        simp
      rw [hb, if_pos rfl, List.length_cons, hr,
        ih (fun x => if x = s' then cnt s' + 1 else cnt x)]
      congr 1
      apply List.map_congr_left
      intro j _
      simp
    · rw [if_neg hs]
      have hb : ((s', v).1 == s) = false := by simpa using hs
      rw [hb]
      simp only [Bool.false_eq_true, if_false]
      rw [ih (fun x => if x = s' then cnt s' + 1 else cnt x)]
      apply List.map_congr_left
      intro j _
      simp only [if_neg (fun hh : s = s' => hs hh.symm)]

/-- groupby-apply-concat-reindex really computes f groupwise: the s-group
of the processed table is f applied to the s-group of the input, provided
f preserves series length. -/
lemma groupOf_applyPerSymbol (f : List ℚ → List ℚ) (d : List (String × ℚ)) (s : String)
    (hf : (f (groupOf d s)).length = (groupOf d s).length) :
    groupOf (applyPerSymbol f d) s = f (groupOf d s) := by
  unfold applyPerSymbol
  rw [applyPerSymbolGo_groupOf f d s d (fun _ => 0)]
  have hlen : ((d.filter (fun r => r.1 == s)).length) = (f (groupOf d s)).length := by
    rw [hf]
    unfold groupOf
    rw [List.length_map]
  rw [hlen]
  have : (fun j => (f (groupOf d s)).getD ((fun _ : String => 0) s + j) 0) =
      fun j => (f (groupOf d s)).getD j 0 := by
    funext j
    simp
  rw [this]
  exact range_getD _

/-! ## Claim theorems -/

/-- C1, counterexample.  The claim says the emitted position sequence never
moves directly between +1 and -1.  The min-holding filter of the optimized
pipeline (strength, min-holding and cooldown filters as chained in
build_alm_strategy_optimized, persistence disabled) reverses Long to Short
on adjacent bars once the holding period is met: on nine +1 bars followed by
a -1 bar, with min_holding_hours = 8 and cooldown_hours = 4, bars 8 and 9 of
the output are +1 and -1 with no intervening 0. -/
theorem C1_counterexample_direct_reversal :
    (cooldownFilter 4 (minHoldingFilter 8 (strengthFilter 1
        [1, 1, 1, 1, 1, 1, 1, 1, 1, -1]))).get? 8 = some 1 ∧
    (cooldownFilter 4 (minHoldingFilter 8 (strengthFilter 1
        [1, 1, 1, 1, 1, 1, 1, 1, 1, -1]))).get? 9 = some (-1) := by
  decide

/-- C1, amended: the hysteresis signal generator apply_hysteresis_numba
never transitions directly from +1 to -1 or -1 to +1 between consecutive
bars (a 0 always intervenes); the min-holding filter of the optimized
pipeline, however, can reverse directly once the holding period is met. -/
theorem C1_hysteresis_no_direct_reversal (bars : List HBar) :
    noDirectReversal (applyHysteresis bars) := by
  cases bars with
  | nil => trivial
  | cons b bs => exact hrun_no_flip 0 bs

/-- C4, counterexample.  The claim says no new non-zero position is emitted
during the cooldownBars bars following an exit.  With cooldown_hours = 1 and
input [1, 0, 1], the position exits at bar 1 and apply_cooldown_filter
re-enters at bar 2, the very next bar after the exit: the code counts the
cooldown window from the exit bar itself, so only cooldownBars - 1 bars
after the exit are blocked. -/
theorem C4_counterexample_cooldown_off_by_one :
    (cooldownFilter 1 [1, 0, 1]).get? 1 = some 0 ∧
    (cooldownFilter 1 [1, 0, 1]).get? 2 = some 1 := by
  decide

/-- C4, amended: after an exit at bar t (the signal passing from non-zero at
bar t-1 to zero at bar t), apply_cooldown_filter emits 0 at every bar of the
window t, t+1, ..., t+cooldownBars-1, whatever the score there; the first
bar at which a new non-zero position can appear is t + cooldownBars
(cooldownBars bars counted from the exit bar inclusive, not exclusive). -/
theorem C4_cooldown_window (c : ℤ) (pre : List ℚ) (a : ℚ) (post : List ℚ)
    (ha : qsign a ≠ 0) (j : ℕ) (x : ℚ) (hj : (j : ℤ) < c)
    (hx : (cooldownFilter c (pre ++ a :: 0 :: post)).get? (pre.length + 1 + j) = some x) :
    x = 0 :=
  cdMain c a post ha pre 0 0 0 none j x hj hx

/-- Witness for C4_cooldown_window: with c = 2 and input [1, 0, 5], the exit
is at bar 1 and bar 2 (inside the window) is 0 despite its score 5. -/
theorem C4_cooldown_window_witness :
    (cooldownFilter 2 [1, 0, 5]).get? 2 = some 0 ∧ (0 : ℚ) = 0 :=
  ⟨by decide,
   C4_cooldown_window 2 [] 1 [5] (by decide) 1 0 (by decide) (by decide)⟩

/-- The opening step of the min-holding filter: from a flat state, a bar
with a non-zero sign opens a position at the current index. -/
lemma mhStep_open (m : ℤ) (i : ℕ) (prev v : ℚ) (hv : qsign v ≠ 0) :
    mhStep m (0, none) i prev v = (v, (qsign v, some i)) := by
  simp [mhStep, hv]

/-- C5: with minHoldingBars = m, a position opened at bar t by
apply_min_holding_period_filter keeps its direction on every bar of the
window t .. t+m-1 — the score-based exit is not honored before bar t+m even
if the signal disappears or reverses (first conjunct) — while the
Chandelier exit applied by apply_chandelier_exit_to_signal writes no stop
on the entry bar of a fresh position (so it can never flatten bar t), but
on every later bar of the run the stop is defined and the position is
flattened as soon as close breaches it, regardless of holding age (second
conjunct). -/
theorem C5_min_holding_vs_trailing_stop :
    (∀ (m : ℤ) (v : ℚ) (rest : List ℚ) (i0 : ℕ) (prev : ℚ),
      qsign v ≠ 0 → ∀ (j : ℕ) (x : ℚ), (j : ℤ) < m →
      (mhGo m (v :: rest) i0 prev (0, none)).get? j = some x → qsign x = qsign v)
    ∧
    (∀ (k : ℚ) (pre : List (CBar × ℚ)) (b0 : CBar) (run : List (CBar × ℚ)),
      (pre = [] ∨ ∃ pre' bz, pre = pre' ++ [(bz, (0 : ℚ))]) →
      (∀ p ∈ run, p.2 = (1 : ℚ)) →
      (applyChandelierPipeline k (pre ++ (b0, 1) :: run)).get? pre.length = some 1 ∧
      ∀ (j : ℕ) (p : CBar × ℚ), run.get? j = some p →
        ∃ st : ℚ,
          (calculateChandelierExit k (pre ++ (b0, 1) :: run)).get? (pre.length + 1 + j) =
            some (some st, none) ∧
          (p.1.close < st →
            (applyChandelierPipeline k (pre ++ (b0, 1) :: run)).get? (pre.length + 1 + j) =
              some 0)) := by
  constructor
  · intro m v rest i0 prev hv j x hj hx
    simp only [mhGo, mhStep_open m i0 prev v hv] at hx
    cases j with
    | zero =>
      simp only [List.get?_cons_zero, Option.some.injEq] at hx
      rw [← hx]
    | succ n =>
      simp only [List.get?_cons_succ] at hx
      exact mhHold m rest (i0 + 1) i0 v (qsign v) rfl hv n x
        (by push_cast; push_cast at hj; omega) hx
  · intro k pre b0 run hpre hrun
    -- the state after the prefix is fully reset
    have hS : chStateAfter k pre 0 ⟨none, none, none⟩ = ⟨none, none, none⟩ := by
      rcases hpre with rfl | ⟨pre', bz, rfl⟩
      · rfl
      · exact chStateAfter_last_zero k pre' bz 0 _
    -- the stop rows from index pre.length on are those of the suffix
    have hsplit : ∀ n,
        (calculateChandelierExit k (pre ++ (b0, 1) :: run)).get? (pre.length + n) =
          (chGo k ((b0, 1) :: run) pre.length ⟨none, none, none⟩).get? n := by
      intro n
      unfold calculateChandelierExit
      rw [chGo_append, hS, Nat.zero_add]
      have hlen : pre.length = (chGo k pre 0 (⟨none, none, none⟩ : ChState)).length :=
        (chGo_length k pre 0 _).symm
      calc (chGo k pre 0 ⟨none, none, none⟩ ++
              chGo k ((b0, 1) :: run) pre.length ⟨none, none, none⟩).get? (pre.length + n)
          = (chGo k pre 0 ⟨none, none, none⟩ ++
              chGo k ((b0, 1) :: run) pre.length ⟨none, none, none⟩).get?
              ((chGo k pre 0 (⟨none, none, none⟩ : ChState)).length + n) := by rw [← hlen]
        _ = (chGo k ((b0, 1) :: run) pre.length ⟨none, none, none⟩).get? n :=
            get?_append_add _ _ n
    -- the entry step seeds the extremum and writes no stop
    have hentry : chStep k ⟨none, none, none⟩ pre.length b0 (1 : ℚ) =
        ((none, none), ⟨some pre.length, some b0.high, none⟩) := by
      simp [chStep]
    have hbars : ∀ n, (pre ++ (b0, 1) :: run).get? (pre.length + n) =
        ((b0, 1) :: run).get? n := fun n => get?_append_add pre _ n
    constructor
    · -- no stop, hence no cut, on the entry bar
      have hstop0 : (calculateChandelierExit k (pre ++ (b0, 1) :: run)).get? pre.length =
          some (none, none) := by
        have := hsplit 0
        rw [Nat.add_zero] at this
        rw [this]
        simp only [chGo, hentry]
        rfl
      have hbar0 : (pre ++ (b0, 1) :: run).get? pre.length = some (b0, 1) := by
        have := hbars 0
        rw [Nat.add_zero] at this
        rw [this]
        rfl
      rw [pipeline_get k _ pre.length (b0, 1) (none, none) hbar0 hstop0]
      rfl
    · intro j p hj
      obtain ⟨st, hst⟩ :=
        chLongStops k run hrun (pre.length + 1) pre.length b0.high none j p hj
      have hidx : pre.length + 1 + j = pre.length + (1 + j) := by omega
      have hstopj : (calculateChandelierExit k (pre ++ (b0, 1) :: run)).get?
          (pre.length + 1 + j) = some (some st, none) := by
        rw [hidx, hsplit (1 + j)]
        have h1j : 1 + j = j + 1 := by omega
        rw [h1j]
        simp only [chGo, hentry, List.get?_cons_succ]
        exact hst
      refine ⟨st, hstopj, fun hclose => ?_⟩
      have hbarj : (pre ++ (b0, 1) :: run).get? (pre.length + 1 + j) = some p := by
        rw [hidx, hbars (1 + j)]
        have h1j : 1 + j = j + 1 := by omega
        rw [h1j, List.get?_cons_succ]
        exact hj
      rw [pipeline_get k _ (pre.length + 1 + j) p (some st, none) hbarj hstopj]
      have hp1 : p.2 = 1 := hrun p (List.get?_mem hj)
      simp [chandelierCut, hp1, hclose]

/-- Witness for C5_min_holding_vs_trailing_stop.  First conjunct at
m = 2 on input [1, 0]: bar 1 keeps the long despite the vanished signal.
Second conjunct at k = 1: a long entered at bar 0 with high 100 and
atr 2 has stop 98 on bar 1, and close 97 < 98 flattens bar 1. -/
theorem C5_min_holding_vs_trailing_stop_witness :
    ((mhGo 2 [1, 0] 0 0 (0, none)).get? 1 = some 1 ∧ qsign 1 = qsign 1) ∧
    ((applyChandelierPipeline 1 [(⟨100, 90, 99, 2⟩, 1), (⟨100, 90, 97, 2⟩, 1)]).get? 0 =
        some 1 ∧
      (applyChandelierPipeline 1 [(⟨100, 90, 99, 2⟩, 1), (⟨100, 90, 97, 2⟩, 1)]).get? 1 =
        some 0) := by
  constructor
  · exact ⟨by decide,
      C5_min_holding_vs_trailing_stop.1 2 1 [0] 0 0 (by decide) 1 1 (by decide) (by decide)⟩
  · have h := C5_min_holding_vs_trailing_stop.2 1 [] ⟨100, 90, 99, 2⟩
      [(⟨100, 90, 97, 2⟩, 1)] (Or.inl rfl) (by intro p hp; simp at hp; rw [hp])
    simp only [List.nil_append, List.length_nil, Nat.zero_add] at h
    refine ⟨h.1, ?_⟩
    obtain ⟨st, hst, himp⟩ := h.2 0 (⟨100, 90, 97, 2⟩, 1) rfl
    simp only [Nat.add_zero] at hst himp
    have hev : (calculateChandelierExit 1
        [((⟨100, 90, 99, 2⟩ : CBar), (1 : ℚ)), (⟨100, 90, 97, 2⟩, 1)]).get? 1 =
        some (some 98, none) := by
      norm_num [calculateChandelierExit, chGo, chStep]
    rw [hev] at hst
    have hst98 : st = 98 := by
      simpa using hst.symm
    exact himp (by rw [hst98]; norm_num)

/-- After a signal-1 bar the entry index is set. -/
lemma chStep_one_entry (k : ℚ) (st : ChState) (i : ℕ) (b : CBar) :
    ∃ e, ((chStep k st i b 1).2).entryIdx = some e := by
  obtain ⟨eo, hh, ll⟩ := st
  cases eo with
  | none => exact ⟨i, by simp [chStep]⟩
  | some e =>
    cases hh with
    | none => exact ⟨e, by simp [chStep]⟩
    | some v => exact ⟨e, by simp [chStep]⟩

/-- After a signal-(-1) bar the entry index is set. -/
lemma chStep_negone_entry (k : ℚ) (st : ChState) (i : ℕ) (b : CBar) :
    ∃ e, ((chStep k st i b (-1)).2).entryIdx = some e := by
  obtain ⟨eo, hh, ll⟩ := st
  cases eo with
  | none => exact ⟨i, by norm_num [chStep]⟩
  | some e =>
    cases ll with
    | none => exact ⟨e, by norm_num [chStep]⟩
    | some v => exact ⟨e, by norm_num [chStep]⟩

/-- On a signal-1 bar with the entry index already set, the tracked highest
high never decreases. -/
lemma chStep_one_mono (k : ℚ) (st : ChState) (i : ℕ) (b : CBar) (e : ℕ) (v : ℚ)
    (he : st.entryIdx = some e) (hv : st.highestHigh = some v) :
    ∃ w, ((chStep k st i b 1).2).highestHigh = some w ∧ v ≤ w := by
  obtain ⟨eo, hh, ll⟩ := st
  simp only [ChState.entryIdx] at he
  simp only [ChState.highestHigh] at hv
  subst he hv
  refine ⟨if b.high > v then b.high else v, by simp [chStep], ?_⟩
  by_cases h : b.high > v
  · simp [h]; linarith
  · simp [h]

/-- On a signal-(-1) bar with the entry index already set, the tracked
lowest low never increases. -/
lemma chStep_negone_mono (k : ℚ) (st : ChState) (i : ℕ) (b : CBar) (e : ℕ) (v : ℚ)
    (he : st.entryIdx = some e) (hv : st.lowestLow = some v) :
    ∃ w, ((chStep k st i b (-1)).2).lowestLow = some w ∧ w ≤ v := by
  obtain ⟨eo, hh, ll⟩ := st
  simp only [ChState.entryIdx] at he
  simp only [ChState.lowestLow] at hv
  subst he hv
  refine ⟨if b.low < v then b.low else v, by norm_num [chStep], ?_⟩
  by_cases h : b.low < v
  · simp [h]; linarith
  · simp [h]

/-- A zero-signal bar resets the state. -/
lemma chStep_zero (k : ℚ) (st : ChState) (i : ℕ) (b : CBar) :
    (chStep k st i b 0).2 = ⟨none, none, none⟩ := by
  norm_num [chStep]

/-- Every recorded state is the post-state of its own bar, applied to some
predecessor state. -/
lemma chStates_is_step (k : ℚ) : ∀ (l : List (CBar × ℚ)) (i : ℕ) (st : ChState)
    (j : ℕ) (p : CBar × ℚ) (stj : ChState),
    l.get? j = some p → (chStates k l i st).get? j = some stj →
    ∃ st0, stj = (chStep k st0 (i + j) p.1 p.2).2 := by
  intro l
  induction l with
  | nil => intro i st j p stj hp; simp at hp
  | cons q rest ih =>
    intro i st j p stj hp hstj
    cases j with
    | zero =>
      simp only [List.get?_cons_zero, Option.some.injEq] at hp
      simp only [chStates, List.get?_cons_zero, Option.some.injEq] at hstj
      subst hp
      refine ⟨st, ?_⟩
      rw [Nat.add_zero, ← hstj]
    | succ n =>
      simp only [List.get?_cons_succ] at hp
      simp only [chStates, List.get?_cons_succ] at hstj
      obtain ⟨st0, h0⟩ := ih (i + 1) _ n p stj hp hstj
      refine ⟨st0, ?_⟩
      rw [show i + (n + 1) = i + 1 + n from by omega]
      exact h0

/-- Consecutive recorded states are linked by the step on the later bar. -/
lemma chStates_adj (k : ℚ) : ∀ (l : List (CBar × ℚ)) (i : ℕ) (st : ChState)
    (j : ℕ) (st1 st2 : ChState) (p : CBar × ℚ),
    (chStates k l i st).get? j = some st1 →
    (chStates k l i st).get? (j + 1) = some st2 →
    l.get? (j + 1) = some p →
    st2 = (chStep k st1 (i + j + 1) p.1 p.2).2 := by
  intro l
  induction l with
  | nil => intro i st j st1 st2 p h1; simp [chStates] at h1
  | cons q rest ih =>
    intro i st j st1 st2 p h1 h2 hp
    cases j with
    | zero =>
      simp only [chStates, List.get?_cons_zero, List.get?_cons_succ, Option.some.injEq]
        at h1 h2 hp
      cases rest with
      | nil => simp [chStates] at h2
      | cons r rest' =>
        simp only [List.get?_cons_zero, Option.some.injEq] at hp
        simp only [chStates, List.get?_cons_zero, Option.some.injEq] at h2
        subst h1 hp
        rw [← h2]
    | succ n =>
      simp only [chStates, List.get?_cons_succ] at h1 h2 hp
      have hnext := ih (i + 1) _ n st1 st2 p h1 h2 hp
      rw [show i + (n + 1) + 1 = i + 1 + n + 1 from by omega]
      exact hnext

/-- C7: while a position is open, the tracked entry extremum of
calculate_chandelier_exit is monotonic in the favorable direction — across
any two consecutive bars of a Long run the tracked highest high never
decreases, across any two consecutive bars of a Short run the tracked
lowest low never increases — and on any flat (signal 0) bar the extremum
state is reset to missing. -/
theorem C7_entry_extremum_monotone (k : ℚ) (bars : List (CBar × ℚ)) (j : ℕ) :
    (∀ (p p' : CBar × ℚ) (st1 st2 : ChState),
      bars.get? j = some p → bars.get? (j + 1) = some p' →
      p.2 = 1 → p'.2 = 1 →
      (chStates k bars 0 ⟨none, none, none⟩).get? j = some st1 →
      (chStates k bars 0 ⟨none, none, none⟩).get? (j + 1) = some st2 →
      ∀ v, st1.highestHigh = some v → ∃ w, st2.highestHigh = some w ∧ v ≤ w)
    ∧
    (∀ (p p' : CBar × ℚ) (st1 st2 : ChState),
      bars.get? j = some p → bars.get? (j + 1) = some p' →
      p.2 = -1 → p'.2 = -1 →
      (chStates k bars 0 ⟨none, none, none⟩).get? j = some st1 →
      (chStates k bars 0 ⟨none, none, none⟩).get? (j + 1) = some st2 →
      ∀ v, st1.lowestLow = some v → ∃ w, st2.lowestLow = some w ∧ w ≤ v)
    ∧
    (∀ (p : CBar × ℚ) (stj : ChState),
      bars.get? j = some p → p.2 = 0 →
      (chStates k bars 0 ⟨none, none, none⟩).get? j = some stj →
      stj = ⟨none, none, none⟩) := by
  refine ⟨?_, ?_, ?_⟩
  · intro p p' st1 st2 hp hp' h1 h1' hst1 hst2 v hv
    obtain ⟨st0, h0⟩ := chStates_is_step k bars 0 ⟨none, none, none⟩ j p st1 hp hst1
    obtain ⟨e, he⟩ : ∃ e, st1.entryIdx = some e := by
      rw [h0, h1]; exact chStep_one_entry k st0 (0 + j) p.1
    have hadj := chStates_adj k bars 0 ⟨none, none, none⟩ j st1 st2 p' hst1 hst2 hp'
    rw [hadj, h1']
    exact chStep_one_mono k st1 (0 + j + 1) p'.1 e v he hv
  · intro p p' st1 st2 hp hp' h1 h1' hst1 hst2 v hv
    obtain ⟨st0, h0⟩ := chStates_is_step k bars 0 ⟨none, none, none⟩ j p st1 hp hst1
    obtain ⟨e, he⟩ : ∃ e, st1.entryIdx = some e := by
      rw [h0, h1]; exact chStep_negone_entry k st0 (0 + j) p.1
    have hadj := chStates_adj k bars 0 ⟨none, none, none⟩ j st1 st2 p' hst1 hst2 hp'
    rw [hadj, h1']
    exact chStep_negone_mono k st1 (0 + j + 1) p'.1 e v he hv
  · intro p stj hp h0 hstj
    obtain ⟨st0, hs⟩ := chStates_is_step k bars 0 ⟨none, none, none⟩ j p stj hp hstj
    rw [hs, h0]
    exact chStep_zero k st0 (0 + j) p.1

/-- Witness for C7_entry_extremum_monotone on the concrete run
long, long, flat, short, short (highs 10 then 12; lows 5 then 3):
the tracked highest high moves 10 to 12, the flat bar resets the state,
and the tracked lowest low moves 5 to 3. -/
theorem C7_entry_extremum_monotone_witness :
    (∃ w, (⟨some 0, some 12, none⟩ : ChState).highestHigh = some w ∧ (10 : ℚ) ≤ w) ∧
    (∃ w, (⟨some 3, none, some 3⟩ : ChState).lowestLow = some w ∧ w ≤ (5 : ℚ)) ∧
    ((⟨none, none, none⟩ : ChState) = ⟨none, none, none⟩) := by
  refine ⟨?_, ?_, ?_⟩
  · exact (C7_entry_extremum_monotone 1
      [(⟨10, 5, 9, 1⟩, 1), (⟨12, 6, 11, 1⟩, 1), (⟨9, 4, 8, 1⟩, 0),
       (⟨10, 5, 9, 1⟩, -1), (⟨12, 3, 11, 1⟩, -1)] 0).1
      (⟨10, 5, 9, 1⟩, 1) (⟨12, 6, 11, 1⟩, 1) ⟨some 0, some 10, none⟩
      ⟨some 0, some 12, none⟩ (by decide) (by decide) rfl rfl (by decide) (by decide)
      10 rfl
  · exact (C7_entry_extremum_monotone 1
      [(⟨10, 5, 9, 1⟩, 1), (⟨12, 6, 11, 1⟩, 1), (⟨9, 4, 8, 1⟩, 0),
       (⟨10, 5, 9, 1⟩, -1), (⟨12, 3, 11, 1⟩, -1)] 3).2.1
      (⟨10, 5, 9, 1⟩, -1) (⟨12, 3, 11, 1⟩, -1) ⟨some 3, none, some 5⟩
      ⟨some 3, none, some 3⟩ (by decide) (by decide) rfl rfl (by decide) (by decide)
      5 rfl
  · exact (C7_entry_extremum_monotone 1
      [(⟨10, 5, 9, 1⟩, 1), (⟨12, 6, 11, 1⟩, 1), (⟨9, 4, 8, 1⟩, 0),
       (⟨10, 5, 9, 1⟩, -1), (⟨12, 3, 11, 1⟩, -1)] 2).2.2
      (⟨9, 4, 8, 1⟩, 0) ⟨none, none, none⟩ (by decide) rfl (by decide)

/-- C6: the gated score equals the raw signal when the regime gate permits
trading (gate value 1) and is 0 when the gate forbids it or its row is
missing; a missing (NaN) CHOP or ADX value makes the regime filter forbid
trading (fail closed); and an instrument whose gate forbids trading on
every bar comes out of the advanced pipeline (gating then Chandelier) with
an all-zero position sequence regardless of the raw signal. -/
theorem C6_regime_gate_fail_closed :
    (∀ r : ℚ, gatedScore r (some 1) = r)
    ∧
    (∀ (r : ℚ) (g : Option ℚ), g = none ∨ g = some 0 → gatedScore r g = 0)
    ∧
    (∀ (adxStrong : ℚ) (chop adx : Option ℚ), chop = none ∨ adx = none →
      regimeFilterVal adxStrong chop adx = 0)
    ∧
    (∀ (k : ℚ) (cbars : List CBar) (raw : List ℚ) (gates : List (Option ℚ)),
      (∀ g ∈ gates, g = none ∨ g = some 0) →
      ∀ x ∈ applyChandelierPipeline k (cbars.zip (gateSignals raw gates)), x = 0) := by
  refine ⟨?_, ?_, ?_, ?_⟩
  · intro r; simp [gatedScore]
  · intro r g hg
    rcases hg with rfl | rfl <;> simp [gatedScore]
  · intro adxStrong chop adx h
    rcases h with rfl | rfl
    · simp [regimeFilterVal, cmpLT]
    · simp [regimeFilterVal, cmpGT]
  · intro k cbars raw gates hg
    apply chandelier_all_zero
    intro p hp
    have h2 := (List.of_mem_zip hp).2
    obtain ⟨r, _, g, hgmem, hval⟩ := mem_zipWith (fun r g => gatedScore r g) raw gates p.2 h2
    rcases hg g hgmem with rfl | rfl <;> simp [hval, gatedScore]

/-- Witness for C6_regime_gate_fail_closed: the identity gate on score 5,
the zero and missing gates on score 5, a missing ADX with CHOP 40, and a
2-bar instrument whose gates are [none, some 0] with raw signals [1, -1]
emitting [0, 0]. -/
theorem C6_regime_gate_fail_closed_witness :
    gatedScore 5 (some 1) = 5 ∧
    gatedScore 5 none = 0 ∧
    regimeFilterVal 25 (some 40) none = 0 ∧
    (0 : ℚ) = 0 := by
  refine ⟨C6_regime_gate_fail_closed.1 5,
    C6_regime_gate_fail_closed.2.1 5 none (Or.inl rfl),
    C6_regime_gate_fail_closed.2.2.1 25 (some 40) none (Or.inr rfl), ?_⟩
  have hpipe : applyChandelierPipeline 1
      ([⟨10, 5, 9, 1⟩, ⟨12, 6, 11, 1⟩].zip (gateSignals [1, -1] [none, some 0])) =
      [0, 0] := by
    norm_num [applyChandelierPipeline, applyChandelierToSignal, calculateChandelierExit,
      gateSignals, gatedScore, chGo, chStep, chandelierCut, List.zip]
  refine C6_regime_gate_fail_closed.2.2.2 1 [⟨10, 5, 9, 1⟩, ⟨12, 6, 11, 1⟩] [1, -1]
    [none, some 0] ?_ 0 (by rw [hpipe]; simp)
  intro g hgm
  simp only [List.mem_cons, List.not_mem_nil, or_false] at hgm
  rcases hgm with rfl | rfl
  · exact Or.inl rfl
  · exact Or.inr rfl

/-- C2, counterexample.  The claim says configuring with
exitThreshold >= entryThreshold, or a negative persistence, min-holding or
cooldown parameter, always fails with ConfigError and produces no engine.
No code path in the repository validates any of these parameters: with
entry_threshold = 1 and exit_threshold = 3 (exit >= entry),
apply_ultra_wide_hysteresis happily runs and even opens a long on a score
of 2, and the filters accept negative bar counts and produce output. -/
theorem C2_counterexample_no_config_error :
    (1 : ℚ) ≤ 3 ∧
    uwHysteresis 1 3 0 [(0, 2)] = [1] ∧
    minHoldingFilter (-5) [1] = [1] ∧
    cooldownFilter (-3) [1] = [1] ∧
    persistenceFilterFF (-2) [1, 1] = [1, 1] := by
  decide

/-- C2, amended: construction performs no validation at all — for every
parameter combination, including exitThreshold >= entryThreshold, a
non-positive minimum holding period, and negative persistence, min-holding
or cooldown bar counts, each stage is total and produces exactly one output
per input bar; no ConfigError exists in the code. -/
theorem C2_no_validation (entry exitT mh : ℚ) (bars : List (ℚ × ℚ))
    (p mhold cd : ℤ) (θ : ℚ) (values : List ℚ) :
    (uwHysteresis entry exitT mh bars).length = bars.length ∧
    (persistenceFilterFF p values).length = values.length ∧
    (strengthFilter θ values).length = values.length ∧
    (minHoldingFilter mhold values).length = values.length ∧
    (cooldownFilter cd values).length = values.length := by
  refine ⟨uwGo_length entry exitT mh bars (0, none), ?_, ?_,
    mhGo_length mhold values 0 0 (0, none), cdGo_length cd values 0 0 (0, none)⟩
  · show (ffProc p (List.replicate values.length 0, 0, none) values).1.length = values.length
    rw [ffProc_arr_length]
    exact List.length_replicate _ _
  · exact List.length_map _ _

/-- C3, counterexample.  The claim says the accumulated persistence restarts
whenever the pending direction changes.  With min_periods = 2 and input
[1, -1] — one bar long, then one bar short, so no direction ever holds for
2 consecutive bars — apply_signal_persistence_filter (forward_fill)
nevertheless outputs [-1, -1]: the run counter tracks consecutive non-zero
bars regardless of sign, so the sign flip did not restart it and a position
opened (with the +1 bar even relabeled to -1). -/
theorem C3_counterexample_no_restart_on_sign_change :
    persistenceFilterFF 2 [1, -1] = [-1, -1] := by
  decide

/-- C3, amended: with persistenceBars = m > 1, a single isolated non-zero
bar (its neighbours zero or absent) never opens a position — its output
stays 0 (first conjunct) — while a maximal run of exactly m consecutive
non-zero bars of unchanged sign does open one: every bar of the run is
labeled with the run's last value, which is non-zero (second conjunct).
The persistence count restarts only when the signal returns to zero; a sign
change alone does not restart it. -/
theorem C3_persistence_gate :
    (∀ (m : ℤ) (pre : List ℚ) (v : ℚ) (post : List ℚ),
      2 ≤ m → v ≠ 0 →
      (pre = [] ∨ ∃ p', pre = p' ++ [(0 : ℚ)]) →
      (post = [] ∨ ∃ p', post = (0 : ℚ) :: p') →
      (persistenceFilterFF m (pre ++ [v] ++ post)).get? pre.length = some 0)
    ∧
    (∀ (m : ℤ) (pre run post : List ℚ) (s : ℚ) (hrun : run ≠ []),
      (∀ u ∈ run, qsign u = s) → s ≠ 0 →
      (run.length : ℤ) = m → 2 ≤ run.length →
      (pre = [] ∨ ∃ p', pre = p' ++ [(0 : ℚ)]) →
      (post = [] ∨ ∃ p', post = (0 : ℚ) :: p') →
      ∀ t, pre.length ≤ t → t < pre.length + run.length →
      (persistenceFilterFF m (pre ++ run ++ post)).get? t = some (run.getLast hrun) ∧
        run.getLast hrun ≠ 0) := by
  constructor
  · intro m pre v post hm hv hpre hpost
    have hmain := ffMasterArr m pre [v] post
      (List.replicate (pre ++ [v] ++ post).length 0) (by simp) (by simpa using hv)
      hpre hpost pre.length le_rfl (by simp)
    rw [show persistenceFilterFF m (pre ++ [v] ++ post) =
      (ffProc m (List.replicate (pre ++ [v] ++ post).length 0, 0, none)
        (pre ++ [v] ++ post)).1 from rfl]
    rw [hmain, if_neg (by simp)]
    exact replicate_get?_lt _ pre.length (by simp)
  · intro m pre run post s hrun hsgn hs hlen h2 hpre hpost t ht1 ht2
    have hnz : ∀ u ∈ run, u ≠ 0 := by
      intro u hu hu0
      apply hs
      rw [← hsgn u hu, hu0, qsign_zero]
    have hmain := ffMasterArr m pre run post
      (List.replicate (pre ++ run ++ post).length 0) hrun hnz hpre hpost t ht1 ht2
    have hfill : 2 ≤ run.length ∧ m ≤ (run.length : ℤ) := ⟨h2, by omega⟩
    rw [show persistenceFilterFF m (pre ++ run ++ post) =
      (ffProc m (List.replicate (pre ++ run ++ post).length 0, 0, none)
        (pre ++ run ++ post)).1 from rfl]
    rw [hmain, if_pos hfill, replicate_get?_lt _ t (by simp; omega)]
    refine ⟨rfl, ?_⟩
    intro h0
    exact hnz (run.getLast hrun) (List.getLast_mem hrun) h0

/-- Witness for C3_persistence_gate: with m = 2, the isolated bar in
[0, 5, 0] stays 0 at index 1, and the exact-2 run in [0, 5, 7, 0] opens:
bars 1 and 2 both end up with the non-zero value 7. -/
theorem C3_persistence_gate_witness :
    (persistenceFilterFF 2 ([0] ++ [5] ++ [0])).get? 1 = some 0 ∧
    (persistenceFilterFF 2 ([0] ++ [5, 7] ++ [0])).get? 1 = some 7 ∧ (7 : ℚ) ≠ 0 := by
  refine ⟨?_, ?_⟩
  · have := C3_persistence_gate.1 2 [0] 5 [0] (by decide) (by decide)
      (Or.inr ⟨[], rfl⟩) (Or.inr ⟨[], rfl⟩)
    simpa using this
  · have := C3_persistence_gate.2 2 [0] [5, 7] [0] 1 (by decide)
      (by intro u hu
          simp only [List.mem_cons, List.not_mem_nil, or_false] at hu
          rcases hu with rfl | rfl <;> decide)
      (by decide) (by decide) (by decide) (Or.inr ⟨[], rfl⟩) (Or.inr ⟨[], rfl⟩)
      1 (by decide) (by decide)
    simpa using this

/-- C9, counterexample.  The claim quantifies over min_periods; with
min_periods = 1 a single non-zero bar is a run of min_periods consecutive
non-zero bars ending at itself, yet after processing that bar the filter
has written nothing (the first bar of a run only records signal_start), so
the output at that bar is 0, not the bar's value 5. -/
theorem C9_counterexample_first_bar_never_written :
    ffAfter 1 [5] 1 = [0] ∧ (5 : ℚ) ≠ 0 := by
  decide

/-- C9, amended: in forward_fill mode with min_periods = m at least 2, once
the input has been non-zero for at least m consecutive bars ending at bar
i, the array state after processing bar i holds bar i's value on every bar
of that run from the run's first bar through i — earlier bars of the run
are relabeled retroactively (first conjunct); consequently the output at a
given bar depends on input values at later bars: inputs [5, 5] and [5, 7]
agree at bar 0 but produce outputs 5 and 7 there (second and third
conjuncts). -/
theorem C9_retroactive_fill :
    (∀ (m : ℤ) (pre mid : List ℚ) (v : ℚ) (rest' : List ℚ),
      (pre = [] ∨ ∃ p', pre = p' ++ [(0 : ℚ)]) →
      (∀ u ∈ mid ++ [v], u ≠ 0) →
      2 ≤ m → m ≤ ((mid ++ [v]).length : ℤ) →
      ∀ t, pre.length ≤ t → t < pre.length + (mid ++ [v]).length →
      (ffAfter m (pre ++ (mid ++ [v]) ++ rest')
        (pre.length + (mid ++ [v]).length)).get? t = some v)
    ∧ (ffAfter 2 [5, 5] 2).get? 0 = some 5
    ∧ (ffAfter 2 [5, 7] 2).get? 0 = some 7 := by
  refine ⟨?_, by decide, by decide⟩
  intro m pre mid v rest' hpre hnz hm hmr t ht1 ht2
  have hrun : mid ++ [v] ≠ [] := by simp
  have hlenmv : (mid ++ [v]).length = mid.length + 1 := by simp
  have htake : (pre ++ (mid ++ [v]) ++ rest').take (pre.length + (mid ++ [v]).length) =
      pre ++ (mid ++ [v]) := by
    rw [List.append_assoc, take_append_add]
    have : ((mid ++ [v]) ++ rest').take (mid ++ [v]).length = mid ++ [v] :=
      List.take_left _ _
    rw [this]
  unfold ffAfter
  rw [htake]
  have hmain := ffMasterArr m pre (mid ++ [v]) []
    (List.replicate (pre ++ (mid ++ [v]) ++ rest').length 0) hrun hnz hpre
    (Or.inl rfl) t ht1 ht2
  rw [show pre ++ (mid ++ [v]) ++ ([] : List ℚ) = pre ++ (mid ++ [v]) by simp] at hmain
  have hfill : 2 ≤ (mid ++ [v]).length ∧ m ≤ ((mid ++ [v]).length : ℤ) :=
    ⟨by exact_mod_cast hm.trans hmr, hmr⟩
  have htlt : t < (List.replicate (pre ++ (mid ++ [v]) ++ rest').length (0 : ℚ)).length := by
    rw [hlenmv] at ht2
    simp
    omega
  rw [hmain, if_pos hfill,
    replicate_get?_lt _ t (by simpa using htlt),
    getLast_append_singleton mid v hrun]
  rfl

/-- Witness for C9_retroactive_fill: with m = 2 on [5, 7], after processing
bar 1 both bars 0 and 1 hold 7 — bar 0 is relabeled retroactively. -/
theorem C9_retroactive_fill_witness :
    (ffAfter 2 ([] ++ ([5] ++ [7]) ++ [])
      (List.length ([] : List ℚ) + ([5] ++ [7] : List ℚ).length)).get? 0 = some 7 := by
  refine C9_retroactive_fill.1 2 [] [5] 7 [] (Or.inl rfl) ?_ (by decide) (by decide)
    0 (by decide) (by decide)
  intro u hu
  simp only [List.singleton_append, List.mem_cons, List.not_mem_nil, or_false] at hu
  rcases hu with rfl | rfl <;> decide

lemma persistenceFilterFF_length (p : ℤ) (l : List ℚ) :
    (persistenceFilterFF p l).length = l.length := by
  show (ffProc p (List.replicate l.length 0, 0, none) l).1.length = l.length
  rw [ffProc_arr_length]
  exact List.length_replicate _ _

lemma minHoldingFilter_length (m : ℤ) (l : List ℚ) :
    (minHoldingFilter m l).length = l.length :=
  mhGo_length m l 0 0 (0, none)

lemma cooldownFilter_length (c : ℤ) (l : List ℚ) :
    (cooldownFilter c l).length = l.length :=
  cdGo_length c l 0 0 (0, none)

/-- C8: the optimized filter chain is per-instrument independent (and, being
a pure function of the table, deterministic): the output rows of a symbol
are a function of that symbol's own value series alone, so two tables that
agree on one symbol's series — however the other symbols' rows differ —
produce identical filtered series for that symbol. -/
theorem C8_per_instrument_independence (p : ℤ) (θ : ℚ) (mh cd : ℤ)
    (d1 d2 : List (String × ℚ)) (s : String)
    (h : groupOf d1 s = groupOf d2 s) :
    groupOf (optimizedTable p θ mh cd d1) s = groupOf (optimizedTable p θ mh cd d2) s := by
  have key : ∀ d : List (String × ℚ), groupOf (optimizedTable p θ mh cd d) s =
      cooldownFilter cd (minHoldingFilter mh
        ((persistenceFilterFF p (groupOf d s)).map (strengthCut θ))) := by
    intro d
    unfold optimizedTable
    rw [groupOf_applyPerSymbol (cooldownFilter cd) _ s (cooldownFilter_length cd _),
      groupOf_applyPerSymbol (minHoldingFilter mh) _ s (minHoldingFilter_length mh _),
      groupOf_tableMap (strengthCut θ),
      groupOf_applyPerSymbol (persistenceFilterFF p) _ s (persistenceFilterFF_length p _)]
  rw [key d1, key d2, h]

/-- Witness for C8_per_instrument_independence: the two tables share
symbol A's single-bar series [1] but differ entirely on symbols B and C;
A's filtered output is the same in both. -/
theorem C8_per_instrument_independence_witness :
    groupOf (optimizedTable 2 1 8 4 [("A", 1), ("B", 5)]) "A" =
      groupOf (optimizedTable 2 1 8 4 [("B", 7), ("A", 1), ("C", 3)]) "A" :=
  C8_per_instrument_independence 2 1 8 4 [("A", 1), ("B", 5)]
    [("B", 7), ("A", 1), ("C", 3)] "A" (by decide)

/-- C10: for every non-empty input the hysteresis generator outputs 0 at
index 0, whatever the first bar's price and bands are: the loop evaluates
entry and exit conditions only from the second bar onward. -/
theorem C10_hysteresis_first_bar_flat (b : HBar) (bs : List HBar) :
    (applyHysteresis (b :: bs)).get? 0 = some 0 := rfl

end MLFT
